import Mathlib

/-
Shallow embedding of the Bitcoin transaction codec from src/src/lib.rs.

Bytes are modelled as `Nat` (with `< 256` stated where a claim quantifies
over raw input), byte buffers as `List Nat`.  Rust's
`Result<(T, usize), BitcoinError>` return type of every `from_bytes` is
modelled by `DecRes T`, with a third outcome `crash` for a panic: the
`usize` addition `prefix_size + script_length` in `Script::from_bytes`
can overflow (debug builds panic at the addition; release builds wrap and
then panic at the out-of-order slice `bytes[prefix_size..prefix_size +
script_length]`), so both build modes diverge from a normal return exactly
when that sum reaches 2^64.  All other `usize` additions in the decoders
are bounded by the slice length plus small constants and cannot overflow
for any Rust-constructible slice (whose length is at most isize::MAX),
so they are modelled as plain `Nat` addition.
-/

namespace BtcCodec

/-- Error enum `BitcoinError` from the source. -/
inductive BitcoinError where
  | InsufficientBytes
  | InvalidFormat
  deriving DecidableEq, Repr

/-- Outcome of a Rust `from_bytes` call: `ok v n` models `Ok((v, n))`
(`n` = bytes consumed), `err e` models `Err(e)`, and `crash` models a
panic (reachable only through the `usize` overflow in
`Script::from_bytes`, see the header comment). -/
inductive DecRes (α : Type) where
  | ok : α → Nat → DecRes α
  | err : BitcoinError → DecRes α
  | crash : DecRes α
  deriving DecidableEq, Repr

/-- Little-endian byte rendering: `leBytes v w` is the first `w` bytes of
`v.to_le_bytes()` in the source (for a `uW` value `v` and width `w` this
is exactly `v.to_le_bytes()`). -/
def leBytes (v : Nat) : Nat → List Nat
  | 0 => []
  | w + 1 => v % 256 :: leBytes (v / 256) w

/-- Numeric value of a little-endian byte list; models the
`uW::from_le_bytes` calls in the source. -/
def fromLE : List Nat → Nat
  | [] => 0
  | b :: rest => b + 256 * fromLE rest

/-- Struct `CompactSize { value: u64 }`. -/
structure CompactSize where
  value : Nat
  deriving DecidableEq, Repr

/-- Rust-constructibility of a `CompactSize`: the field is a `u64`. -/
@[reducible] def CompactSize.WF (c : CompactSize) : Prop := c.value < 2 ^ 64

/-- The source's `CompactSize::to_bytes`. -/
def CompactSize.to_bytes (c : CompactSize) : List Nat :=
  if c.value < 253 then [c.value]
  else if c.value ≤ 0xFFFF then 253 :: leBytes c.value 2
  else if c.value ≤ 0xFFFFFFFF then 254 :: leBytes c.value 4
  else 255 :: leBytes c.value 8

/-- The source's `CompactSize::from_bytes`.  The Rust `match` on the `u8`
selector has arms `0..=252`, `253`, `254`, `255`; the final `else` here is
the `255` arm (for genuine byte input the guard chain is exhaustive in
the same way). -/
def CompactSize.from_bytes (bytes : List Nat) : DecRes CompactSize :=
  match bytes with
  | [] => .err .InsufficientBytes
  | b0 :: _ =>
    if b0 ≤ 252 then .ok ⟨b0⟩ 1
    else if b0 = 253 then
      if bytes.length < 3 then .err .InsufficientBytes
      else .ok ⟨fromLE ((bytes.drop 1).take 2)⟩ 3
    else if b0 = 254 then
      if bytes.length < 5 then .err .InsufficientBytes
      else .ok ⟨fromLE ((bytes.drop 1).take 4)⟩ 5
    else
      if bytes.length < 9 then .err .InsufficientBytes
      else .ok ⟨fromLE ((bytes.drop 1).take 8)⟩ 9

/-- Struct `Txid(pub [u8; 32])`. -/
structure Txid where
  bytes : List Nat
  deriving DecidableEq, Repr

/-- Rust-constructibility of a `Txid`: 32 raw bytes. -/
@[reducible] def Txid.WF (t : Txid) : Prop := t.bytes.length = 32 ∧ ∀ b ∈ t.bytes, b < 256

/-- Test of the `hex` crate's digit set (`0-9`, `a-f`, `A-F`). -/
def isHexDigit (c : Char) : Bool :=
  ( '0' ≤ c && c ≤ '9') || ( 'a' ≤ c && c ≤ 'f') || ( 'A' ≤ c && c ≤ 'F')

/-- Numeric value of a hex digit character. -/
def hexVal (c : Char) : Nat :=
  if c ≤ '9' then c.toNat - 48
  else if c ≤ 'F' then c.toNat - 55
  else c.toNat - 87

/-- The `hex::decode` call used by `Txid::deserialize`: fails on an
odd-length string or any non-hex character, otherwise turns each digit
pair into one byte. -/
def hexDecode : List Char → Option (List Nat)
  | [] => some []
  | [_] => none
  | a :: b :: rest =>
    if isHexDigit a && isHexDigit b then
      (hexDecode rest).map fun t => (16 * hexVal a + hexVal b) :: t
    else none

/-- The `hex::encode` call used by `Txid::serialize`: two lowercase hex
digits per byte. -/
def hexDigitChar (n : Nat) : Char :=
  if n < 10 then Char.ofNat (48 + n) else Char.ofNat (87 + n)

/-- Lowercase hex rendering of a byte list (`hex::encode`). -/
def hexEncode : List Nat → List Char
  | [] => []
  | b :: rest => hexDigitChar (b / 16) :: hexDigitChar (b % 16) :: hexEncode rest

/-- The textual decode path of `Txid::deserialize`: `hex::decode` the
string, reject when the decoded length is not 32.  Both rejections are
surfaced as serde custom errors in the source (the InvalidFormat-class
failures of the spec); here failure is `none`. -/
def Txid.fromHexChars (s : List Char) : Option Txid :=
  match hexDecode s with
  | none => none
  | some l => if l.length = 32 then some ⟨l⟩ else none

/-- Struct `OutPoint { txid: Txid, vout: u32 }`. -/
structure OutPoint where
  txid : Txid
  vout : Nat
  deriving DecidableEq, Repr

/-- Rust-constructibility of an `OutPoint`. -/
@[reducible] def OutPoint.WF (o : OutPoint) : Prop := o.txid.WF ∧ o.vout < 2 ^ 32

/-- The source's `OutPoint::to_bytes`: 32 txid bytes then 4-byte LE vout. -/
def OutPoint.to_bytes (o : OutPoint) : List Nat :=
  o.txid.bytes ++ leBytes o.vout 4

/-- The source's `OutPoint::from_bytes`: requires 36 bytes, consumes 36. -/
def OutPoint.from_bytes (bytes : List Nat) : DecRes OutPoint :=
  if bytes.length < 36 then .err .InsufficientBytes
  else .ok ⟨⟨bytes.take 32⟩, fromLE ((bytes.drop 32).take 4)⟩ 36

/-- Struct `Script { bytes: Vec<u8> }`. -/
structure Script where
  bytes : List Nat
  deriving DecidableEq, Repr

/-- Rust-constructibility of a `Script`: byte content, and a length below
isize::MAX (no Rust allocation can exceed that). -/
@[reducible] def Script.WF (s : Script) : Prop :=
  (∀ b ∈ s.bytes, b < 256) ∧ s.bytes.length < 2 ^ 63

/-- The source's `Script::to_bytes`: CompactSize length prefix then the raw
content (`self.bytes.len() as u64` is lossless for any Rust vector). -/
def Script.to_bytes (s : Script) : List Nat :=
  CompactSize.to_bytes ⟨s.bytes.length⟩ ++ s.bytes

/-- The source's `Script::from_bytes`.  `script_length` is
`compact_size.value as usize` (lossless: the value fits in 64 bits when
the input is genuine bytes).  The guard `pfxSize + scriptLength ≥ 2^64`
is where the Rust `usize` addition `prefix_size + script_length`
overflows: debug builds panic there, release builds wrap and then panic
at the slice whose start exceeds its end, so both are modelled `crash`. -/
def Script.from_bytes (bytes : List Nat) : DecRes Script :=
  match CompactSize.from_bytes bytes with
  | .err e => .err e
  | .crash => .crash
  | .ok c pfxSize =>
    let scriptLength := c.value
    if 2 ^ 64 ≤ pfxSize + scriptLength then .crash
    else if bytes.length < pfxSize + scriptLength then .err .InsufficientBytes
    else .ok ⟨(bytes.drop pfxSize).take scriptLength⟩ (pfxSize + scriptLength)

/-- Struct `TransactionInput`. -/
structure TransactionInput where
  previous_output : OutPoint
  script_sig : Script
  sequence : Nat
  deriving DecidableEq, Repr

/-- Rust-constructibility of a `TransactionInput`. -/
@[reducible] def TransactionInput.WF (i : TransactionInput) : Prop :=
  i.previous_output.WF ∧ i.script_sig.WF ∧ i.sequence < 2 ^ 32

/-- The source's `TransactionInput::to_bytes`. -/
def TransactionInput.to_bytes (i : TransactionInput) : List Nat :=
  i.previous_output.to_bytes ++ i.script_sig.to_bytes ++ leBytes i.sequence 4

/-- The source's `TransactionInput::from_bytes`: OutPoint, then Script
starting right after, then 4 bytes of sequence. -/
def TransactionInput.from_bytes (bytes : List Nat) : DecRes TransactionInput :=
  match OutPoint.from_bytes bytes with
  | .err e => .err e
  | .crash => .crash
  | .ok prevOut outpointSize =>
    match Script.from_bytes (bytes.drop outpointSize) with
    | .err e => .err e
    | .crash => .crash
    | .ok scriptSig scriptSize =>
      let seqStart := outpointSize + scriptSize
      if bytes.length < seqStart + 4 then .err .InsufficientBytes
      else .ok ⟨prevOut, scriptSig, fromLE ((bytes.drop seqStart).take 4)⟩ (seqStart + 4)

/-- Struct `BitcoinTransaction`. -/
structure BitcoinTransaction where
  version : Nat
  inputs : List TransactionInput
  lock_time : Nat
  deriving DecidableEq, Repr

/-- Rust-constructibility of a `BitcoinTransaction`. -/
@[reducible] def BitcoinTransaction.WF (t : BitcoinTransaction) : Prop :=
  t.version < 2 ^ 32 ∧ t.lock_time < 2 ^ 32 ∧
    t.inputs.length < 2 ^ 64 ∧ ∀ i ∈ t.inputs, i.WF

/-- The source's `BitcoinTransaction::to_bytes`: LE version, CompactSize
input count, each input's bytes in order, LE lock_time. -/
def BitcoinTransaction.to_bytes (t : BitcoinTransaction) : List Nat :=
  leBytes t.version 4 ++ CompactSize.to_bytes ⟨t.inputs.length⟩ ++
    (t.inputs.map TransactionInput.to_bytes).flatten ++ leBytes t.lock_time 4

/-- The input-decoding loop of `BitcoinTransaction::from_bytes`.  The Rust
loop decodes `TransactionInput::from_bytes(&bytes[offset..])` and advances
`offset` by the consumed size; here the remaining slice `bytes[offset..]`
is passed directly and the consumed total is returned
(`bytes[offset + sz ..] = (bytes[offset..])[sz..]`, so the two are the
same iteration). -/
def decodeInputs (bytes : List Nat) : Nat → DecRes (List TransactionInput)
  | 0 => .ok [] 0
  | n + 1 =>
    match TransactionInput.from_bytes bytes with
    | .err e => .err e
    | .crash => .crash
    | .ok inp sz =>
      match decodeInputs (bytes.drop sz) n with
      | .err e => .err e
      | .crash => .crash
      | .ok l tot => .ok (inp :: l) (sz + tot)

/-- The source's `BitcoinTransaction::from_bytes`. -/
def BitcoinTransaction.from_bytes (bytes : List Nat) : DecRes BitcoinTransaction :=
  if bytes.length < 4 then .err .InsufficientBytes
  else
    match CompactSize.from_bytes (bytes.drop 4) with
    | .err e => .err e
    | .crash => .crash
    | .ok c m =>
      match decodeInputs ((bytes.drop 4).drop m) c.value with
      | .err e => .err e
      | .crash => .crash
      | .ok inputs tot =>
        let offset := 4 + m + tot
        if bytes.length < offset + 4 then .err .InsufficientBytes
        else .ok ⟨fromLE (bytes.take 4), inputs, fromLE ((bytes.drop offset).take 4)⟩ (offset + 4)

/-! Basic facts about the little-endian helpers. -/

lemma length_leBytes (v : Nat) : ∀ w, (leBytes v w).length = w := by
  intro w
  induction w generalizing v with
  | zero => rfl
  | succ w ih => simp [leBytes, ih]

lemma fromLE_leBytes (w : Nat) : ∀ v, fromLE (leBytes v w) = v % 256 ^ w := by
  induction w with
  | zero => intro v; simp [leBytes, fromLE, Nat.mod_one]
  | succ w ih =>
    intro v
    rw [leBytes, fromLE, ih, pow_succ', Nat.mod_mul]

lemma fromLE_leBytes_of_lt {w v : Nat} (h : v < 256 ^ w) :
    fromLE (leBytes v w) = v := by
  rw [fromLE_leBytes, Nat.mod_eq_of_lt h]

lemma take_leBytes_append (v w : Nat) (rest : List Nat) :
    ((leBytes v w) ++ rest).take w = leBytes v w := by
  have h := List.take_left (leBytes v w) rest
  rwa [length_leBytes] at h

lemma drop_leBytes_append (v w : Nat) (rest : List Nat) :
    ((leBytes v w) ++ rest).drop w = rest := by
  have h := List.drop_left (leBytes v w) rest
  rwa [length_leBytes] at h

/-- Equal takes of length `n` give equal takes of any `j + m ≤ n` window. -/
lemma take_drop_congr {b b2 : List Nat} {n j m : Nat}
    (h : b2.take n = b.take n) (hjm : j + m ≤ n) :
    (b2.drop j).take m = (b.drop j).take m := by
  have h2 : b2.take (j + m) = b.take (j + m) := by
    rw [← Nat.min_eq_left hjm, ← List.take_take, ← List.take_take, h]
  rw [List.take_drop, List.take_drop, h2]

/-! CompactSize: round trip, consumed-length bound, prefix-determinism,
truncation. -/

lemma CompactSize.rt_cs (c : CompactSize) (rest : List Nat) (h : c.WF) :
    CompactSize.from_bytes (c.to_bytes ++ rest) = .ok c c.to_bytes.length := by
  obtain ⟨v⟩ := c
  have hv : v < 2 ^ 64 := h
  by_cases h1 : v < 253
  · have he : CompactSize.to_bytes ⟨v⟩ = [v] := by simp [CompactSize.to_bytes, h1]
    rw [he]
    simp [CompactSize.from_bytes, show v ≤ 252 by omega]
  · by_cases h2 : v ≤ 0xFFFF
    · have he : CompactSize.to_bytes ⟨v⟩ = 253 :: leBytes v 2 := by
        simp [CompactSize.to_bytes, h1, h2]
      rw [he, List.cons_append]
      simp [CompactSize.from_bytes, length_leBytes, take_leBytes_append,
        fromLE_leBytes_of_lt (show v < 256 ^ 2 by omega)]
    · by_cases h3 : v ≤ 0xFFFFFFFF
      · have he : CompactSize.to_bytes ⟨v⟩ = 254 :: leBytes v 4 := by
          simp [CompactSize.to_bytes, h1, h2, h3]
        rw [he, List.cons_append]
        simp [CompactSize.from_bytes, length_leBytes, take_leBytes_append,
          fromLE_leBytes_of_lt (show v < 256 ^ 4 by omega)]
      · have he : CompactSize.to_bytes ⟨v⟩ = 255 :: leBytes v 8 := by
          simp [CompactSize.to_bytes, h1, h2, h3]
        rw [he, List.cons_append]
        simp [CompactSize.from_bytes, length_leBytes, take_leBytes_append,
          fromLE_leBytes_of_lt (show v < 256 ^ 8 by omega)]

lemma CompactSize.from_bytes_cons (b0 : Nat) (tl : List Nat) :
    CompactSize.from_bytes (b0 :: tl) =
      if b0 ≤ 252 then .ok ⟨b0⟩ 1
      else if b0 = 253 then
        if tl.length + 1 < 3 then .err .InsufficientBytes
        else .ok ⟨fromLE (tl.take 2)⟩ 3
      else if b0 = 254 then
        if tl.length + 1 < 5 then .err .InsufficientBytes
        else .ok ⟨fromLE (tl.take 4)⟩ 5
      else
        if tl.length + 1 < 9 then .err .InsufficientBytes
        else .ok ⟨fromLE (tl.take 8)⟩ 9 := by
  simp [CompactSize.from_bytes]

lemma CompactSize.consumed_le_cs {b : List Nat} {c : CompactSize} {n : Nat}
    (h : CompactSize.from_bytes b = .ok c n) : 1 ≤ n ∧ n ≤ b.length := by
  cases b with
  | nil => simp [CompactSize.from_bytes] at h
  | cons b0 tl =>
    rw [CompactSize.from_bytes_cons] at h
    split_ifs at h <;> simp_all <;> omega

lemma CompactSize.stable_cs {b b2 : List Nat} {c : CompactSize} {n : Nat}
    (h : CompactSize.from_bytes b = .ok c n)
    (ht : b2.take n = b.take n) (hl : n ≤ b2.length) :
    CompactSize.from_bytes b2 = .ok c n := by
  obtain ⟨hn1, hnb⟩ := CompactSize.consumed_le_cs h
  cases b with
  | nil => simp [CompactSize.from_bytes] at h
  | cons b0 tl =>
    cases b2 with
    | nil => simp at hl; omega
    | cons b0' tl2 =>
      obtain ⟨m, rfl⟩ : ∃ m, n = m + 1 := ⟨n - 1, by omega⟩
      rw [List.take_succ_cons, List.take_succ_cons] at ht
      obtain ⟨hb0, htl⟩ := List.cons.inj ht
      subst hb0
      simp only [List.length_cons] at hl hnb
      rw [CompactSize.from_bytes_cons] at h ⊢
      by_cases g1 : b0' ≤ 252
      · simp only [if_pos g1] at h ⊢
        exact h
      · by_cases g2 : b0' = 253
        · simp only [if_neg g1, if_pos g2] at h ⊢
          have glen : ¬ (tl.length + 1 < 3) := by
            by_contra gc
            rw [if_pos gc] at h
            exact absurd h (by simp)
          rw [if_neg glen] at h
          injection h with h1 h2
          have hm2 : m = 2 := by omega
          subst hm2
          rw [if_neg (by omega : ¬ (tl2.length + 1 < 3)), htl, h1, h2]
        · by_cases g3 : b0' = 254
          · simp only [if_neg g1, if_neg g2, if_pos g3] at h ⊢
            have glen : ¬ (tl.length + 1 < 5) := by
              by_contra gc
              rw [if_pos gc] at h
              exact absurd h (by simp)
            rw [if_neg glen] at h
            injection h with h1 h2
            have hm4 : m = 4 := by omega
            subst hm4
            rw [if_neg (by omega : ¬ (tl2.length + 1 < 5)), htl, h1, h2]
          · simp only [if_neg g1, if_neg g2, if_neg g3] at h ⊢
            have glen : ¬ (tl.length + 1 < 9) := by
              by_contra gc
              rw [if_pos gc] at h
              exact absurd h (by simp)
            rw [if_neg glen] at h
            injection h with h1 h2
            have hm8 : m = 8 := by omega
            subst hm8
            rw [if_neg (by omega : ¬ (tl2.length + 1 < 9)), htl, h1, h2]

lemma CompactSize.truncate_cs {b : List Nat} {c : CompactSize} {n : Nat}
    (h : CompactSize.from_bytes b = .ok c n) {k : Nat} (hk : k < n) :
    CompactSize.from_bytes (b.take k) = .err .InsufficientBytes := by
  obtain ⟨hn1, hnb⟩ := CompactSize.consumed_le_cs h
  cases b with
  | nil => simp [CompactSize.from_bytes] at h
  | cons b0 tl =>
    cases k with
    | zero => rfl
    | succ k =>
      rw [List.take_succ_cons]
      rw [CompactSize.from_bytes_cons] at h ⊢
      have hlen : (tl.take k).length = min k tl.length := List.length_take k tl
      simp only [List.length_cons] at hnb
      split_ifs at h ⊢ <;> simp_all <;> omega

/-- Equal takes of length `n` give equal takes of any shorter length. -/
lemma take_congr_of_take_eq {b b2 : List Nat} {n m : Nat}
    (ht : b2.take n = b.take n) (hm : m ≤ n) : b2.take m = b.take m := by
  rw [← Nat.min_eq_left hm, ← List.take_take, ← List.take_take, ht]

/-- CompactSize encodings are at most 9 bytes and at least 1 byte long. -/
lemma CompactSize.to_bytes_length_cs (c : CompactSize) :
    1 ≤ c.to_bytes.length ∧ c.to_bytes.length ≤ 9 := by
  unfold CompactSize.to_bytes
  split_ifs <;> simp [length_leBytes]

/-! OutPoint: round trip, inversion, prefix-determinism, truncation. -/

lemma OutPoint.rt_op (o : OutPoint) (rest : List Nat) (h : o.WF) :
    OutPoint.from_bytes (o.to_bytes ++ rest) = .ok o 36 := by
  obtain ⟨⟨htl, _⟩, hv⟩ := h
  unfold OutPoint.from_bytes OutPoint.to_bytes
  rw [List.append_assoc]
  have hlen : (o.txid.bytes ++ (leBytes o.vout 4 ++ rest)).length
      = 36 + rest.length := by
    simp [length_leBytes, htl]
    omega
  rw [if_neg (by omega)]
  have h32 : (o.txid.bytes ++ (leBytes o.vout 4 ++ rest)).take 32
      = o.txid.bytes := by
    rw [← htl]
    exact List.take_left _ _
  have hdrop : (o.txid.bytes ++ (leBytes o.vout 4 ++ rest)).drop 32
      = leBytes o.vout 4 ++ rest := by
    rw [← htl]
    exact List.drop_left _ _
  have hv4 : o.vout < 256 ^ 4 := lt_of_lt_of_le hv (by norm_num)
  rw [h32, hdrop, take_leBytes_append, fromLE_leBytes_of_lt hv4]

lemma OutPoint.ok_inv_op {b : List Nat} {o : OutPoint} {n : Nat}
    (h : OutPoint.from_bytes b = .ok o n) :
    36 ≤ b.length ∧ n = 36 ∧ o = ⟨⟨b.take 32⟩, fromLE ((b.drop 32).take 4)⟩ := by
  unfold OutPoint.from_bytes at h
  split_ifs at h with g
  injection h with h1 h2
  exact ⟨by omega, h2.symm, h1.symm⟩

lemma OutPoint.stable_op {b b2 : List Nat} {o : OutPoint} {n : Nat}
    (h : OutPoint.from_bytes b = .ok o n)
    (ht : b2.take n = b.take n) (hl : n ≤ b2.length) :
    OutPoint.from_bytes b2 = .ok o n := by
  obtain ⟨hb, rfl, ho⟩ := OutPoint.ok_inv_op h
  unfold OutPoint.from_bytes
  rw [if_neg (by omega : ¬ b2.length < 36)]
  have h32 : b2.take 32 = b.take 32 := take_congr_of_take_eq ht (by omega)
  have h4 : (b2.drop 32).take 4 = (b.drop 32).take 4 :=
    take_drop_congr ht (by omega)
  rw [h32, h4, ← ho]

lemma OutPoint.truncate_op {b : List Nat} {o : OutPoint} {n : Nat}
    (h : OutPoint.from_bytes b = .ok o n) {k : Nat} (hk : k < n) :
    OutPoint.from_bytes (b.take k) = .err .InsufficientBytes := by
  obtain ⟨hb, rfl, ho⟩ := OutPoint.ok_inv_op h
  unfold OutPoint.from_bytes
  rw [if_pos]
  rw [List.length_take]
  omega

/-! Script: characterization, round trip, inversion, prefix-determinism,
truncation. -/

lemma Script.from_bytes_of_cs {b : List Nat} {c : CompactSize} {p : Nat}
    (hcs : CompactSize.from_bytes b = .ok c p) :
    Script.from_bytes b =
      (if 2 ^ 64 ≤ p + c.value then .crash
       else if b.length < p + c.value then .err .InsufficientBytes
       else .ok ⟨(b.drop p).take c.value⟩ (p + c.value)) := by
  unfold Script.from_bytes
  rw [hcs]

lemma Script.from_bytes_of_cs_err_script {b : List Nat} {e : BitcoinError}
    (hcs : CompactSize.from_bytes b = .err e) :
    Script.from_bytes b = .err e := by
  unfold Script.from_bytes
  rw [hcs]

lemma Script.rt_script (s : Script) (rest : List Nat) (h : s.WF) :
    Script.from_bytes (s.to_bytes ++ rest) = .ok s s.to_bytes.length := by
  obtain ⟨_, hlen⟩ := h
  unfold Script.to_bytes
  rw [List.append_assoc]
  have hwf : (⟨s.bytes.length⟩ : CompactSize).WF := by
    have : s.bytes.length < 2 ^ 64 := lt_trans hlen (by norm_num)
    exact this
  have hcs := CompactSize.rt_cs ⟨s.bytes.length⟩ (s.bytes ++ rest) hwf
  rw [Script.from_bytes_of_cs hcs]
  obtain ⟨hp1, hp9⟩ := CompactSize.to_bytes_length_cs (⟨s.bytes.length⟩ : CompactSize)
  rw [if_neg (by omega : ¬ 2 ^ 64 ≤ (CompactSize.to_bytes ⟨s.bytes.length⟩).length + s.bytes.length)]
  rw [if_neg (by simp only [List.length_append]; omega)]
  rw [List.drop_left, List.take_left]
  simp [List.length_append]

lemma Script.ok_inv_script {b : List Nat} {s : Script} {n : Nat}
    (h : Script.from_bytes b = .ok s n) :
    ∃ c p, CompactSize.from_bytes b = .ok c p ∧ p + c.value < 2 ^ 64 ∧
      p + c.value ≤ b.length ∧ s = ⟨(b.drop p).take c.value⟩ ∧
      n = p + c.value := by
  unfold Script.from_bytes at h
  cases hcs : CompactSize.from_bytes b with
  | err e => rw [hcs] at h; exact absurd h (by simp)
  | crash => rw [hcs] at h; exact absurd h (by simp)
  | ok c p =>
    rw [hcs] at h
    simp only at h
    split_ifs at h with g1 g2
    injection h with h1 h2
    exact ⟨c, p, rfl, by omega, by omega, h1.symm, h2.symm⟩

lemma Script.stable_script {b b2 : List Nat} {s : Script} {n : Nat}
    (h : Script.from_bytes b = .ok s n)
    (ht : b2.take n = b.take n) (hl : n ≤ b2.length) :
    Script.from_bytes b2 = .ok s n := by
  obtain ⟨c, p, hcs, hof, hble, hs, rfl⟩ := Script.ok_inv_script h
  obtain ⟨hp1, hpb⟩ := CompactSize.consumed_le_cs hcs
  have hcs2 : CompactSize.from_bytes b2 = .ok c p :=
    CompactSize.stable_cs hcs (take_congr_of_take_eq ht (by omega)) (by omega)
  rw [Script.from_bytes_of_cs hcs2]
  rw [if_neg (by omega), if_neg (by omega)]
  rw [take_drop_congr ht (by omega), ← hs]

lemma Script.truncate_script {b : List Nat} {s : Script} {n : Nat}
    (h : Script.from_bytes b = .ok s n) {k : Nat} (hk : k < n) :
    Script.from_bytes (b.take k) = .err .InsufficientBytes := by
  obtain ⟨c, p, hcs, hof, hble, hs, rfl⟩ := Script.ok_inv_script h
  obtain ⟨hp1, hpb⟩ := CompactSize.consumed_le_cs hcs
  by_cases hkp : k < p
  · exact Script.from_bytes_of_cs_err_script (CompactSize.truncate_cs hcs hkp)
  · have hcs2 : CompactSize.from_bytes (b.take k) = .ok c p := by
      refine CompactSize.stable_cs hcs ?_ ?_
      · rw [List.take_take, Nat.min_eq_left (by omega)]
      · rw [List.length_take]
        omega
    rw [Script.from_bytes_of_cs hcs2]
    rw [if_neg (by omega), if_pos]
    rw [List.length_take]
    omega

/-! TransactionInput: characterization, round trip, inversion,
prefix-determinism, truncation. -/

lemma OutPoint.to_bytes_length_op {o : OutPoint} (h : o.WF) :
    o.to_bytes.length = 36 := by
  obtain ⟨⟨htl, _⟩, _⟩ := h
  simp [OutPoint.to_bytes, length_leBytes, htl]

lemma Script.to_bytes_length_script (s : Script) :
    s.to_bytes.length = (CompactSize.to_bytes ⟨s.bytes.length⟩).length + s.bytes.length := by
  simp [Script.to_bytes]

lemma TransactionInput.from_bytes_of_op_err {b : List Nat} {e : BitcoinError}
    (hop : OutPoint.from_bytes b = .err e) :
    TransactionInput.from_bytes b = .err e := by
  unfold TransactionInput.from_bytes
  rw [hop]

lemma TransactionInput.from_bytes_of_script_err {b : List Nat} {o : OutPoint}
    {p : Nat} {e : BitcoinError}
    (hop : OutPoint.from_bytes b = .ok o p)
    (hs : Script.from_bytes (b.drop p) = .err e) :
    TransactionInput.from_bytes b = .err e := by
  unfold TransactionInput.from_bytes
  rw [hop]
  dsimp only
  rw [hs]

lemma TransactionInput.from_bytes_of_sub_ti {b : List Nat} {o : OutPoint}
    {p : Nat} {s : Script} {q : Nat}
    (hop : OutPoint.from_bytes b = .ok o p)
    (hs : Script.from_bytes (b.drop p) = .ok s q) :
    TransactionInput.from_bytes b =
      (if b.length < p + q + 4 then .err .InsufficientBytes
       else .ok ⟨o, s, fromLE ((b.drop (p + q)).take 4)⟩ (p + q + 4)) := by
  unfold TransactionInput.from_bytes
  rw [hop]
  dsimp only
  rw [hs]

lemma TransactionInput.rt_ti (i : TransactionInput) (rest : List Nat)
    (h : i.WF) :
    TransactionInput.from_bytes (i.to_bytes ++ rest) = .ok i i.to_bytes.length := by
  obtain ⟨hop, hs, hseq⟩ := h
  unfold TransactionInput.to_bytes
  rw [List.append_assoc, List.append_assoc]
  have hople := OutPoint.to_bytes_length_op hop
  have h1 : OutPoint.from_bytes
      (i.previous_output.to_bytes ++ (i.script_sig.to_bytes ++ (leBytes i.sequence 4 ++ rest)))
      = .ok i.previous_output 36 :=
    OutPoint.rt_op i.previous_output _ hop
  have hdrop36 : (i.previous_output.to_bytes ++ (i.script_sig.to_bytes ++ (leBytes i.sequence 4 ++ rest))).drop 36
      = i.script_sig.to_bytes ++ (leBytes i.sequence 4 ++ rest) := by
    rw [← hople]
    exact List.drop_left _ _
  have h2 : Script.from_bytes
      ((i.previous_output.to_bytes ++ (i.script_sig.to_bytes ++ (leBytes i.sequence 4 ++ rest))).drop 36)
      = .ok i.script_sig i.script_sig.to_bytes.length := by
    rw [hdrop36]
    exact Script.rt_script i.script_sig _ hs
  rw [TransactionInput.from_bytes_of_sub_ti h1 h2]
  have hlen : (i.previous_output.to_bytes ++ (i.script_sig.to_bytes ++ (leBytes i.sequence 4 ++ rest))).length
      = 36 + i.script_sig.to_bytes.length + 4 + rest.length := by
    simp [List.length_append, hople, length_leBytes]
    omega
  rw [if_neg (by omega)]
  have hdropSeq : (i.previous_output.to_bytes ++ (i.script_sig.to_bytes ++ (leBytes i.sequence 4 ++ rest))).drop (36 + i.script_sig.to_bytes.length)
      = leBytes i.sequence 4 ++ rest := by
    rw [← List.drop_drop, hdrop36, List.drop_left]
  rw [hdropSeq, take_leBytes_append,
    fromLE_leBytes_of_lt (lt_of_lt_of_le hseq (by norm_num))]
  have hlen2 : (i.previous_output.to_bytes ++ i.script_sig.to_bytes ++ leBytes i.sequence 4).length
      = 36 + i.script_sig.to_bytes.length + 4 := by
    simp [List.length_append, hople, length_leBytes]
    omega
  rw [hlen2]

lemma TransactionInput.ok_inv_ti {b : List Nat} {i : TransactionInput} {n : Nat}
    (h : TransactionInput.from_bytes b = .ok i n) :
    ∃ o s q, OutPoint.from_bytes b = .ok o 36 ∧
      Script.from_bytes (b.drop 36) = .ok s q ∧
      36 + q + 4 ≤ b.length ∧
      i = ⟨o, s, fromLE ((b.drop (36 + q)).take 4)⟩ ∧ n = 36 + q + 4 := by
  unfold TransactionInput.from_bytes at h
  cases hop : OutPoint.from_bytes b with
  | err e => rw [hop] at h; exact absurd h (by simp)
  | crash => rw [hop] at h; exact absurd h (by simp)
  | ok o p =>
    obtain ⟨_, rfl, _⟩ := OutPoint.ok_inv_op hop
    rw [hop] at h
    dsimp only at h
    cases hs : Script.from_bytes (b.drop 36) with
    | err e => rw [hs] at h; exact absurd h (by simp)
    | crash => rw [hs] at h; exact absurd h (by simp)
    | ok s q =>
      rw [hs] at h
      dsimp only at h
      split_ifs at h with g
      injection h with h1 h2
      exact ⟨o, s, q, rfl, rfl, by omega, h1.symm, by omega⟩

lemma TransactionInput.stable_ti {b b2 : List Nat} {i : TransactionInput} {n : Nat}
    (h : TransactionInput.from_bytes b = .ok i n)
    (ht : b2.take n = b.take n) (hl : n ≤ b2.length) :
    TransactionInput.from_bytes b2 = .ok i n := by
  obtain ⟨o, s, q, hop, hs, hble, hi, rfl⟩ := TransactionInput.ok_inv_ti h
  have hop2 : OutPoint.from_bytes b2 = .ok o 36 :=
    OutPoint.stable_op hop (take_congr_of_take_eq ht (by omega)) (by omega)
  obtain ⟨_, _, hq, _, _⟩ := Script.ok_inv_script hs
  have hs2 : Script.from_bytes (b2.drop 36) = .ok s q := by
    refine Script.stable_script hs ?_ ?_
    · exact take_drop_congr ht (by omega)
    · rw [List.length_drop]
      omega
  rw [TransactionInput.from_bytes_of_sub_ti hop2 hs2]
  rw [if_neg (by omega)]
  rw [take_drop_congr ht (by omega : 36 + q + 4 ≤ 36 + q + 4), ← hi]

lemma TransactionInput.truncate_ti {b : List Nat} {i : TransactionInput} {n : Nat}
    (h : TransactionInput.from_bytes b = .ok i n) {k : Nat} (hk : k < n) :
    TransactionInput.from_bytes (b.take k) = .err .InsufficientBytes := by
  obtain ⟨o, s, q, hop, hs, hble, hi, rfl⟩ := TransactionInput.ok_inv_ti h
  by_cases hk36 : k < 36
  · exact TransactionInput.from_bytes_of_op_err (OutPoint.truncate_op hop hk36)
  · have hop2 : OutPoint.from_bytes (b.take k) = .ok o 36 := by
      refine OutPoint.stable_op hop ?_ ?_
      · rw [List.take_take, Nat.min_eq_left (by omega)]
      · rw [List.length_take]
        omega
    have hdt : (b.take k).drop 36 = (b.drop 36).take (k - 36) :=
      List.drop_take k 36 b
    by_cases hkq : k - 36 < q
    · have hserr : Script.from_bytes ((b.take k).drop 36)
          = .err .InsufficientBytes := by
        rw [hdt]
        exact Script.truncate_script hs hkq
      exact TransactionInput.from_bytes_of_script_err hop2 hserr
    · have hs2 : Script.from_bytes ((b.take k).drop 36) = .ok s q := by
        rw [hdt]
        refine Script.stable_script hs ?_ ?_
        · rw [List.take_take, Nat.min_eq_left (by omega)]
        · rw [List.length_take, List.length_drop]
          omega
      rw [TransactionInput.from_bytes_of_sub_ti hop2 hs2]
      rw [if_pos]
      rw [List.length_take]
      omega

lemma TransactionInput.consumed_le_ti {b : List Nat} {i : TransactionInput}
    {n : Nat} (h : TransactionInput.from_bytes b = .ok i n) : n ≤ b.length := by
  obtain ⟨o, s, q, _, _, hble, _, rfl⟩ := TransactionInput.ok_inv_ti h
  omega

/-! The input-count loop: step equations, consumed-length bound, round
trip, prefix-determinism, truncation. -/

lemma decodeInputs_succ_err {b : List Nat} {n : Nat} {e : BitcoinError}
    (h : TransactionInput.from_bytes b = .err e) :
    decodeInputs b (n + 1) = .err e := by
  unfold decodeInputs
  rw [h]

lemma decodeInputs_succ_ok {b : List Nat} {n : Nat} {i : TransactionInput}
    {sz : Nat} (h : TransactionInput.from_bytes b = .ok i sz) :
    decodeInputs b (n + 1) =
      (match decodeInputs (b.drop sz) n with
       | .err e => .err e
       | .crash => .crash
       | .ok l tot => .ok (i :: l) (sz + tot)) := by
  conv_lhs => unfold decodeInputs
  rw [h]

lemma decodeInputs_succ_ok_err {b : List Nat} {n : Nat} {i : TransactionInput}
    {sz : Nat} {e : BitcoinError}
    (h1 : TransactionInput.from_bytes b = .ok i sz)
    (h2 : decodeInputs (b.drop sz) n = .err e) :
    decodeInputs b (n + 1) = .err e := by
  rw [decodeInputs_succ_ok h1, h2]

lemma decodeInputs_ok_inv {b : List Nat} {n : Nat} {l : List TransactionInput}
    {tot : Nat} (h : decodeInputs b (n + 1) = .ok l tot) :
    ∃ i sz l2 tot2, TransactionInput.from_bytes b = .ok i sz ∧
      decodeInputs (b.drop sz) n = .ok l2 tot2 ∧
      l = i :: l2 ∧ tot = sz + tot2 := by
  unfold decodeInputs at h
  cases hti : TransactionInput.from_bytes b with
  | err e => rw [hti] at h; exact absurd h (by simp)
  | crash => rw [hti] at h; exact absurd h (by simp)
  | ok i sz =>
    rw [hti] at h
    dsimp only at h
    cases hrec : decodeInputs (b.drop sz) n with
    | err e => rw [hrec] at h; exact absurd h (by simp)
    | crash => rw [hrec] at h; exact absurd h (by simp)
    | ok l2 tot2 =>
      rw [hrec] at h
      dsimp only at h
      injection h with h1 h2
      exact ⟨i, sz, l2, tot2, rfl, hrec, h1.symm, h2.symm⟩

lemma decodeInputs_consumed_le {n : Nat} :
    ∀ {b : List Nat} {l : List TransactionInput} {tot : Nat},
      decodeInputs b n = .ok l tot → tot ≤ b.length := by
  induction n with
  | zero =>
    intro b l tot h
    unfold decodeInputs at h
    injection h with h1 h2
    omega
  | succ n ih =>
    intro b l tot h
    obtain ⟨i, sz, l2, tot2, hti, hrec, rfl, rfl⟩ := decodeInputs_ok_inv h
    have h1 := TransactionInput.consumed_le_ti hti
    have h2 := ih hrec
    rw [List.length_drop] at h2
    omega

lemma decodeInputs_stable {n : Nat} :
    ∀ {b b2 : List Nat} {l : List TransactionInput} {tot : Nat},
      decodeInputs b n = .ok l tot → b2.take tot = b.take tot →
      tot ≤ b2.length → decodeInputs b2 n = .ok l tot := by
  induction n with
  | zero =>
    intro b b2 l tot h ht hl
    unfold decodeInputs at h ⊢
    injection h with h1 h2
    rw [h1, h2]
  | succ n ih =>
    intro b b2 l tot h ht hl
    obtain ⟨i, sz, l2, tot2, hti, hrec, rfl, rfl⟩ := decodeInputs_ok_inv h
    have hti2 : TransactionInput.from_bytes b2 = .ok i sz :=
      TransactionInput.stable_ti hti (take_congr_of_take_eq ht (by omega)) (by omega)
    rw [decodeInputs_succ_ok hti2]
    have hrec2 : decodeInputs (b2.drop sz) n = .ok l2 tot2 := by
      refine ih hrec (take_drop_congr ht (by omega)) ?_
      rw [List.length_drop]
      have := TransactionInput.consumed_le_ti hti
      omega
    rw [hrec2]

lemma decodeInputs_truncate {n : Nat} :
    ∀ {b : List Nat} {l : List TransactionInput} {tot : Nat} {k : Nat},
      decodeInputs b n = .ok l tot → k < tot →
      decodeInputs (b.take k) n = .err .InsufficientBytes := by
  induction n with
  | zero =>
    intro b l tot k h hk
    unfold decodeInputs at h
    injection h with h1 h2
    omega
  | succ n ih =>
    intro b l tot k h hk
    obtain ⟨i, sz, l2, tot2, hti, hrec, rfl, rfl⟩ := decodeInputs_ok_inv h
    have hsz := TransactionInput.consumed_le_ti hti
    have htot2 := decodeInputs_consumed_le hrec
    rw [List.length_drop] at htot2
    by_cases hksz : k < sz
    · exact decodeInputs_succ_err (TransactionInput.truncate_ti hti hksz)
    · have hti2 : TransactionInput.from_bytes (b.take k) = .ok i sz := by
        refine TransactionInput.stable_ti hti ?_ ?_
        · rw [List.take_take, Nat.min_eq_left (by omega)]
        · rw [List.length_take]
          omega
      refine decodeInputs_succ_ok_err hti2 ?_
      rw [List.drop_take]
      exact ih hrec (by omega)

lemma decodeInputs_rt (l : List TransactionInput) (rest : List Nat)
    (h : ∀ i ∈ l, i.WF) :
    decodeInputs ((l.map TransactionInput.to_bytes).flatten ++ rest) l.length
      = .ok l ((l.map TransactionInput.to_bytes).flatten).length := by
  induction l generalizing rest with
  | nil => simp [decodeInputs]
  | cons i tl ih =>
    rw [List.map_cons, List.flatten_cons, List.append_assoc]
    have h1 : TransactionInput.from_bytes
        (i.to_bytes ++ ((tl.map TransactionInput.to_bytes).flatten ++ rest))
        = .ok i i.to_bytes.length :=
      TransactionInput.rt_ti i _ (h i (by simp))
    rw [List.length_cons, decodeInputs_succ_ok h1,
      List.drop_left, ih rest (fun j hj => h j (by simp [hj]))]
    simp [List.length_append]

/-! BitcoinTransaction: characterization, round trip, inversion,
prefix-determinism, truncation. -/

lemma BitcoinTransaction.from_bytes_short {b : List Nat} (h : b.length < 4) :
    BitcoinTransaction.from_bytes b = .err .InsufficientBytes := by
  unfold BitcoinTransaction.from_bytes
  rw [if_pos h]

lemma BitcoinTransaction.from_bytes_of_cs_err_tx {b : List Nat} {e : BitcoinError}
    (h4 : ¬ b.length < 4) (hcs : CompactSize.from_bytes (b.drop 4) = .err e) :
    BitcoinTransaction.from_bytes b = .err e := by
  unfold BitcoinTransaction.from_bytes
  rw [if_neg h4, hcs]

lemma BitcoinTransaction.from_bytes_of_inputs_err {b : List Nat}
    {c : CompactSize} {m : Nat} {e : BitcoinError}
    (h4 : ¬ b.length < 4) (hcs : CompactSize.from_bytes (b.drop 4) = .ok c m)
    (hdec : decodeInputs ((b.drop 4).drop m) c.value = .err e) :
    BitcoinTransaction.from_bytes b = .err e := by
  unfold BitcoinTransaction.from_bytes
  rw [if_neg h4, hcs]
  dsimp only
  rw [hdec]

lemma BitcoinTransaction.from_bytes_of_sub_tx {b : List Nat} {c : CompactSize}
    {m : Nat} {inputs : List TransactionInput} {tot : Nat}
    (h4 : ¬ b.length < 4) (hcs : CompactSize.from_bytes (b.drop 4) = .ok c m)
    (hdec : decodeInputs ((b.drop 4).drop m) c.value = .ok inputs tot) :
    BitcoinTransaction.from_bytes b =
      (if b.length < 4 + m + tot + 4 then .err .InsufficientBytes
       else .ok ⟨fromLE (b.take 4), inputs,
         fromLE ((b.drop (4 + m + tot)).take 4)⟩ (4 + m + tot + 4)) := by
  unfold BitcoinTransaction.from_bytes
  rw [if_neg h4, hcs]
  dsimp only
  rw [hdec]

lemma BitcoinTransaction.rt_tx (t : BitcoinTransaction) (rest : List Nat)
    (h : t.WF) :
    BitcoinTransaction.from_bytes (t.to_bytes ++ rest)
      = .ok t t.to_bytes.length := by
  obtain ⟨hver, hlock, hcnt, hin⟩ := h
  have hexp : t.to_bytes ++ rest
      = leBytes t.version 4 ++ (CompactSize.to_bytes ⟨t.inputs.length⟩ ++
        ((t.inputs.map TransactionInput.to_bytes).flatten ++
          (leBytes t.lock_time 4 ++ rest))) := by
    simp [BitcoinTransaction.to_bytes, List.append_assoc]
  rw [hexp]
  set csb := CompactSize.to_bytes ⟨t.inputs.length⟩ with hcsb
  set flat := (t.inputs.map TransactionInput.to_bytes).flatten with hflat
  set big := leBytes t.version 4 ++ (csb ++ (flat ++ (leBytes t.lock_time 4 ++ rest))) with hbig
  have h4 : ¬ big.length < 4 := by
    rw [hbig]
    simp [List.length_append, length_leBytes]
  have hd4 : big.drop 4 = csb ++ (flat ++ (leBytes t.lock_time 4 ++ rest)) := by
    rw [hbig]
    exact drop_leBytes_append _ _ _
  have hcs : CompactSize.from_bytes (big.drop 4)
      = .ok ⟨t.inputs.length⟩ csb.length := by
    rw [hd4, hcsb]
    exact CompactSize.rt_cs _ _ hcnt
  have hdm : (big.drop 4).drop csb.length
      = flat ++ (leBytes t.lock_time 4 ++ rest) := by
    rw [hd4]
    exact List.drop_left _ _
  have hdec : decodeInputs ((big.drop 4).drop csb.length) t.inputs.length
      = .ok t.inputs flat.length := by
    rw [hdm, hflat]
    exact decodeInputs_rt t.inputs _ hin
  rw [BitcoinTransaction.from_bytes_of_sub_tx h4 hcs hdec]
  have hlen : big.length = 4 + csb.length + flat.length + 4 + rest.length := by
    rw [hbig]
    simp [List.length_append, length_leBytes]
    omega
  rw [if_neg (by omega)]
  have htake4 : big.take 4 = leBytes t.version 4 := by
    rw [hbig]
    exact take_leBytes_append _ _ _
  have hdlock : big.drop (4 + csb.length + flat.length)
      = leBytes t.lock_time 4 ++ rest := by
    rw [← List.drop_drop, ← List.drop_drop, hd4, List.drop_left, List.drop_left]
  have hlenTB : t.to_bytes.length = 4 + csb.length + flat.length + 4 := by
    rw [hcsb, hflat]
    simp [BitcoinTransaction.to_bytes, List.length_append, length_leBytes]
    omega
  rw [htake4, hdlock, take_leBytes_append,
    fromLE_leBytes_of_lt (lt_of_lt_of_le hver (by norm_num)),
    fromLE_leBytes_of_lt (lt_of_lt_of_le hlock (by norm_num)), hlenTB]

lemma BitcoinTransaction.ok_inv_tx {b : List Nat} {t : BitcoinTransaction}
    {n : Nat} (h : BitcoinTransaction.from_bytes b = .ok t n) :
    ∃ c m inputs tot, 4 ≤ b.length ∧
      CompactSize.from_bytes (b.drop 4) = .ok c m ∧
      decodeInputs (b.drop (4 + m)) c.value = .ok inputs tot ∧
      4 + m + tot + 4 ≤ b.length ∧
      t = ⟨fromLE (b.take 4), inputs, fromLE ((b.drop (4 + m + tot)).take 4)⟩ ∧
      n = 4 + m + tot + 4 := by
  unfold BitcoinTransaction.from_bytes at h
  split_ifs at h with g
  cases hcs : CompactSize.from_bytes (b.drop 4) with
  | err e => rw [hcs] at h; exact absurd h (by simp)
  | crash => rw [hcs] at h; exact absurd h (by simp)
  | ok c m =>
    rw [hcs] at h
    dsimp only at h
    cases hdec : decodeInputs ((b.drop 4).drop m) c.value with
    | err e => rw [hdec] at h; exact absurd h (by simp)
    | crash => rw [hdec] at h; exact absurd h (by simp)
    | ok inputs tot =>
      rw [hdec] at h
      dsimp only at h
      split_ifs at h with g2
      injection h with h1 h2
      refine ⟨c, m, inputs, tot, by omega, rfl, ?_, by omega, h1.symm, by omega⟩
      rw [← List.drop_drop]
      exact hdec

lemma BitcoinTransaction.stable_tx {b b2 : List Nat} {t : BitcoinTransaction}
    {n : Nat} (h : BitcoinTransaction.from_bytes b = .ok t n)
    (ht : b2.take n = b.take n) (hl : n ≤ b2.length) :
    BitcoinTransaction.from_bytes b2 = .ok t n := by
  obtain ⟨c, m, inputs, tot, hb4, hcs, hdec, hble, hteq, rfl⟩ :=
    BitcoinTransaction.ok_inv_tx h
  obtain ⟨hm1, hmb⟩ := CompactSize.consumed_le_cs hcs
  rw [List.length_drop] at hmb
  have hcs2 : CompactSize.from_bytes (b2.drop 4) = .ok c m :=
    CompactSize.stable_cs hcs (take_drop_congr ht (by omega)) (by rw [List.length_drop]; omega)
  have hdec2 : decodeInputs (b2.drop (4 + m)) c.value = .ok inputs tot := by
    refine decodeInputs_stable hdec (take_drop_congr ht (by omega)) ?_
    rw [List.length_drop]
    omega
  have hdec2' : decodeInputs ((b2.drop 4).drop m) c.value = .ok inputs tot := by
    rw [List.drop_drop]
    exact hdec2
  rw [BitcoinTransaction.from_bytes_of_sub_tx (by omega) hcs2 hdec2']
  rw [if_neg (by omega)]
  rw [take_congr_of_take_eq ht (by omega : 4 ≤ 4 + m + tot + 4),
    take_drop_congr ht (by omega : 4 + m + tot + 4 ≤ 4 + m + tot + 4), ← hteq]

lemma BitcoinTransaction.truncate_tx {b : List Nat} {t : BitcoinTransaction}
    {n : Nat} (h : BitcoinTransaction.from_bytes b = .ok t n)
    {k : Nat} (hk : k < n) :
    BitcoinTransaction.from_bytes (b.take k) = .err .InsufficientBytes := by
  obtain ⟨c, m, inputs, tot, hb4, hcs, hdec, hble, hteq, rfl⟩ :=
    BitcoinTransaction.ok_inv_tx h
  obtain ⟨hm1, hmb⟩ := CompactSize.consumed_le_cs hcs
  rw [List.length_drop] at hmb
  have htot := decodeInputs_consumed_le hdec
  rw [List.length_drop] at htot
  by_cases hk4 : k < 4
  · refine BitcoinTransaction.from_bytes_short ?_
    rw [List.length_take]
    omega
  · have h4' : ¬ (b.take k).length < 4 := by
      rw [List.length_take]
      omega
    have hdt4 : (b.take k).drop 4 = (b.drop 4).take (k - 4) :=
      List.drop_take k 4 b
    by_cases hkm : k - 4 < m
    · refine BitcoinTransaction.from_bytes_of_cs_err_tx h4' ?_
      rw [hdt4]
      exact CompactSize.truncate_cs hcs hkm
    · have hcs2 : CompactSize.from_bytes ((b.take k).drop 4) = .ok c m := by
        rw [hdt4]
        refine CompactSize.stable_cs hcs ?_ ?_
        · rw [List.take_take, Nat.min_eq_left (by omega)]
        · rw [List.length_take, List.length_drop]
          omega
      have hdd : ((b.take k).drop 4).drop m = (b.drop (4 + m)).take (k - 4 - m) := by
        rw [hdt4, List.drop_take, List.drop_drop]
      by_cases hktot : k - 4 - m < tot
      · refine BitcoinTransaction.from_bytes_of_inputs_err h4' hcs2 ?_
        rw [hdd]
        exact decodeInputs_truncate hdec hktot
      · have hdec2 : decodeInputs (((b.take k).drop 4).drop m) c.value
            = .ok inputs tot := by
          rw [hdd]
          refine decodeInputs_stable hdec ?_ ?_
          · rw [List.take_take, Nat.min_eq_left (by omega)]
          · rw [List.length_take, List.length_drop]
            omega
        rw [BitcoinTransaction.from_bytes_of_sub_tx h4' hcs2 hdec2]
        rw [if_pos]
        rw [List.length_take]
        omega

/-! The binary decoders never produce `InvalidFormat`, and only
`Script::from_bytes` (and the decoders containing it) can crash. -/

lemma CompactSize.no_IF_cs (b : List Nat) :
    CompactSize.from_bytes b ≠ .err .InvalidFormat := by
  cases b with
  | nil => simp [CompactSize.from_bytes]
  | cons b0 tl =>
    rw [CompactSize.from_bytes_cons]
    split_ifs <;> simp

lemma CompactSize.no_crash_cs (b : List Nat) :
    CompactSize.from_bytes b ≠ .crash := by
  cases b with
  | nil => simp [CompactSize.from_bytes]
  | cons b0 tl =>
    rw [CompactSize.from_bytes_cons]
    split_ifs <;> simp

lemma OutPoint.no_IF_op (b : List Nat) :
    OutPoint.from_bytes b ≠ .err .InvalidFormat := by
  unfold OutPoint.from_bytes
  split_ifs <;> simp

lemma OutPoint.no_crash_op (b : List Nat) :
    OutPoint.from_bytes b ≠ .crash := by
  unfold OutPoint.from_bytes
  split_ifs <;> simp

lemma Script.no_IF_script (b : List Nat) :
    Script.from_bytes b ≠ .err .InvalidFormat := by
  cases hcs : CompactSize.from_bytes b with
  | err e =>
    rw [Script.from_bytes_of_cs_err_script hcs]
    intro hcon
    injection hcon with he
    rw [he] at hcs
    exact CompactSize.no_IF_cs b hcs
  | crash => exact absurd hcs (CompactSize.no_crash_cs b)
  | ok c p =>
    rw [Script.from_bytes_of_cs hcs]
    split_ifs <;> simp

lemma TransactionInput.no_IF_ti (b : List Nat) :
    TransactionInput.from_bytes b ≠ .err .InvalidFormat := by
  cases hop : OutPoint.from_bytes b with
  | err e =>
    rw [TransactionInput.from_bytes_of_op_err hop]
    intro hcon
    injection hcon with he
    rw [he] at hop
    exact OutPoint.no_IF_op b hop
  | crash => exact absurd hop (OutPoint.no_crash_op b)
  | ok o p =>
    cases hs : Script.from_bytes (b.drop p) with
    | err e =>
      rw [TransactionInput.from_bytes_of_script_err hop hs]
      intro hcon
      injection hcon with he
      rw [he] at hs
      exact Script.no_IF_script _ hs
    | crash =>
      unfold TransactionInput.from_bytes
      rw [hop]
      dsimp only
      rw [hs]
      simp
    | ok s q =>
      rw [TransactionInput.from_bytes_of_sub_ti hop hs]
      split_ifs <;> simp

lemma decodeInputs_no_IF (n : Nat) :
    ∀ b : List Nat, decodeInputs b n ≠ .err .InvalidFormat := by
  induction n with
  | zero =>
    intro b
    unfold decodeInputs
    simp
  | succ n ih =>
    intro b
    cases hti : TransactionInput.from_bytes b with
    | err e =>
      rw [decodeInputs_succ_err hti]
      intro hcon
      injection hcon with he
      rw [he] at hti
      exact TransactionInput.no_IF_ti b hti
    | crash =>
      unfold decodeInputs
      rw [hti]
      simp
    | ok i sz =>
      rw [decodeInputs_succ_ok hti]
      cases hrec : decodeInputs (b.drop sz) n with
      | err e =>
        intro hcon
        dsimp only at hcon
        injection hcon with he
        rw [he] at hrec
        exact ih _ hrec
      | crash => simp
      | ok l tot => simp

lemma BitcoinTransaction.no_IF_tx (b : List Nat) :
    BitcoinTransaction.from_bytes b ≠ .err .InvalidFormat := by
  by_cases h4 : b.length < 4
  · rw [BitcoinTransaction.from_bytes_short h4]
    simp
  · cases hcs : CompactSize.from_bytes (b.drop 4) with
    | err e =>
      rw [BitcoinTransaction.from_bytes_of_cs_err_tx h4 hcs]
      intro hcon
      injection hcon with he
      rw [he] at hcs
      exact CompactSize.no_IF_cs _ hcs
    | crash => exact absurd hcs (CompactSize.no_crash_cs _)
    | ok c m =>
      cases hdec : decodeInputs ((b.drop 4).drop m) c.value with
      | err e =>
        rw [BitcoinTransaction.from_bytes_of_inputs_err h4 hcs hdec]
        intro hcon
        injection hcon with he
        rw [he] at hdec
        exact decodeInputs_no_IF _ _ hdec
      | crash =>
        unfold BitcoinTransaction.from_bytes
        rw [if_neg h4, hcs]
        dsimp only
        rw [hdec]
        simp
      | ok inputs tot =>
        rw [BitcoinTransaction.from_bytes_of_sub_tx h4 hcs hdec]
        split_ifs <;> simp

/-! Sample values used by the witnesses. -/

/-- All-zero 32-byte txid. -/
def sampleTxid : Txid := ⟨List.replicate 32 0⟩

/-- OutPoint with the all-zero txid and vout 0xFFFFFFFF. -/
def sampleOutPoint : OutPoint := ⟨sampleTxid, 4294967295⟩

/-- Two-byte script 0xAA 0xBB. -/
def sampleScript : Script := ⟨[170, 187]⟩

/-- An input built from the samples above. -/
def sampleInput : TransactionInput := ⟨sampleOutPoint, sampleScript, 0⟩

/-- A transaction with one input. -/
def sampleTx : BitcoinTransaction := ⟨1, [sampleInput], 0⟩

/-- Appending bytes does not change a take that is within the first list. -/
lemma take_append_of_le {b ext : List Nat} {n : Nat} (h : n ≤ b.length) :
    (b ++ ext).take n = b.take n := by
  rw [List.take_append_eq_append_take, Nat.sub_eq_zero_of_le h]
  simp

/-- Claim C1: for every constructible value of each entity type,
`from_bytes (to_bytes x)` succeeds and returns exactly
`(x, (to_bytes x).length)`. -/
theorem C1_round_trip :
    (∀ c : CompactSize, c.WF →
      CompactSize.from_bytes c.to_bytes = .ok c c.to_bytes.length) ∧
    (∀ o : OutPoint, o.WF →
      OutPoint.from_bytes o.to_bytes = .ok o o.to_bytes.length) ∧
    (∀ s : Script, s.WF →
      Script.from_bytes s.to_bytes = .ok s s.to_bytes.length) ∧
    (∀ i : TransactionInput, i.WF →
      TransactionInput.from_bytes i.to_bytes = .ok i i.to_bytes.length) ∧
    (∀ t : BitcoinTransaction, t.WF →
      BitcoinTransaction.from_bytes t.to_bytes = .ok t t.to_bytes.length) := by
  refine ⟨?_, ?_, ?_, ?_, ?_⟩
  · intro c hc
    have h := CompactSize.rt_cs c [] hc
    rwa [List.append_nil] at h
  · intro o ho
    have h := OutPoint.rt_op o [] ho
    rw [List.append_nil] at h
    rw [OutPoint.to_bytes_length_op ho]
    exact h
  · intro s hs
    have h := Script.rt_script s [] hs
    rwa [List.append_nil] at h
  · intro i hi
    have h := TransactionInput.rt_ti i [] hi
    rwa [List.append_nil] at h
  · intro t htx
    have h := BitcoinTransaction.rt_tx t [] htx
    rwa [List.append_nil] at h

/-- Witness for C1 at concrete values of all five entity types. -/
theorem C1_round_trip_witness :
    CompactSize.from_bytes (CompactSize.to_bytes ⟨300⟩)
      = .ok ⟨300⟩ (CompactSize.to_bytes ⟨300⟩).length ∧
    OutPoint.from_bytes sampleOutPoint.to_bytes
      = .ok sampleOutPoint sampleOutPoint.to_bytes.length ∧
    Script.from_bytes sampleScript.to_bytes
      = .ok sampleScript sampleScript.to_bytes.length ∧
    TransactionInput.from_bytes sampleInput.to_bytes
      = .ok sampleInput sampleInput.to_bytes.length ∧
    BitcoinTransaction.from_bytes sampleTx.to_bytes
      = .ok sampleTx sampleTx.to_bytes.length :=
  ⟨C1_round_trip.1 ⟨300⟩ (by decide),
   C1_round_trip.2.1 sampleOutPoint (by decide),
   C1_round_trip.2.2.1 sampleScript (by decide),
   C1_round_trip.2.2.2.1 sampleInput (by decide),
   C1_round_trip.2.2.2.2 sampleTx (by decide)⟩

/-- Claim C2: `CompactSize::to_bytes` always picks the narrowest width:
values up to 252 take 1 byte (the value itself), 253..65535 take selector
0xFD plus 2 LE bytes, 65536..4294967295 selector 0xFE plus 4 LE bytes,
4294967296 and above selector 0xFF plus 8 LE bytes. -/
theorem C2_minimal_width :
    (∀ v : Nat, v ≤ 252 → CompactSize.to_bytes ⟨v⟩ = [v]) ∧
    (∀ v : Nat, 253 ≤ v → v ≤ 65535 →
      CompactSize.to_bytes ⟨v⟩ = 253 :: leBytes v 2 ∧
        (CompactSize.to_bytes ⟨v⟩).length = 3) ∧
    (∀ v : Nat, 65536 ≤ v → v ≤ 4294967295 →
      CompactSize.to_bytes ⟨v⟩ = 254 :: leBytes v 4 ∧
        (CompactSize.to_bytes ⟨v⟩).length = 5) ∧
    (∀ v : Nat, 4294967296 ≤ v → v < 2 ^ 64 →
      CompactSize.to_bytes ⟨v⟩ = 255 :: leBytes v 8 ∧
        (CompactSize.to_bytes ⟨v⟩).length = 9) := by
  refine ⟨?_, ?_, ?_, ?_⟩
  · intro v h1
    simp [CompactSize.to_bytes, show v < 253 by omega]
  · intro v h1 h2
    have he : CompactSize.to_bytes ⟨v⟩ = 253 :: leBytes v 2 := by
      simp [CompactSize.to_bytes, show ¬ v < 253 by omega, show v ≤ 0xFFFF by omega]
    exact ⟨he, by rw [he]; simp [length_leBytes]⟩
  · intro v h1 h2
    have he : CompactSize.to_bytes ⟨v⟩ = 254 :: leBytes v 4 := by
      simp [CompactSize.to_bytes, show ¬ v < 253 by omega,
        show ¬ v ≤ 0xFFFF by omega, show v ≤ 0xFFFFFFFF by omega]
    exact ⟨he, by rw [he]; simp [length_leBytes]⟩
  · intro v h1 h2
    have he : CompactSize.to_bytes ⟨v⟩ = 255 :: leBytes v 8 := by
      simp [CompactSize.to_bytes, show ¬ v < 253 by omega,
        show ¬ v ≤ 0xFFFF by omega, show ¬ v ≤ 0xFFFFFFFF by omega]
    exact ⟨he, by rw [he]; simp [length_leBytes]⟩

/-- Witness for C2 at the four width classes. -/
theorem C2_minimal_width_witness :
    CompactSize.to_bytes ⟨252⟩ = [252] ∧
    (CompactSize.to_bytes ⟨253⟩ = 253 :: leBytes 253 2 ∧
      (CompactSize.to_bytes ⟨253⟩).length = 3) ∧
    (CompactSize.to_bytes ⟨65536⟩ = 254 :: leBytes 65536 4 ∧
      (CompactSize.to_bytes ⟨65536⟩).length = 5) ∧
    (CompactSize.to_bytes ⟨4294967296⟩ = 255 :: leBytes 4294967296 8 ∧
      (CompactSize.to_bytes ⟨4294967296⟩).length = 9) :=
  ⟨C2_minimal_width.1 252 (by decide),
   C2_minimal_width.2.1 253 (by decide) (by decide),
   C2_minimal_width.2.2.1 65536 (by decide) (by decide),
   C2_minimal_width.2.2.2 4294967296 (by decide) (by decide)⟩

/-- Claim C3: `CompactSize::from_bytes` is permissive: the first byte alone
selects how many bytes are consumed (1, 3, 5 or 9) and the trailing LE
bytes give the value, with no minimality check; decoding 0xFF followed by
the 8-byte LE form of 10 yields (10, 9), and decoding [0x01, 0xFF]
yields (1, 1). -/
theorem C3_permissive_decode :
    (∀ b0 rest, b0 ≤ 252 →
      CompactSize.from_bytes (b0 :: rest) = .ok ⟨b0⟩ 1) ∧
    (∀ v rest, v < 2 ^ 16 →
      CompactSize.from_bytes (253 :: (leBytes v 2 ++ rest)) = .ok ⟨v⟩ 3) ∧
    (∀ v rest, v < 2 ^ 32 →
      CompactSize.from_bytes (254 :: (leBytes v 4 ++ rest)) = .ok ⟨v⟩ 5) ∧
    (∀ v rest, v < 2 ^ 64 →
      CompactSize.from_bytes (255 :: (leBytes v 8 ++ rest)) = .ok ⟨v⟩ 9) ∧
    CompactSize.from_bytes (255 :: leBytes 10 8) = .ok ⟨10⟩ 9 ∧
    CompactSize.from_bytes [1, 255] = .ok ⟨1⟩ 1 := by
  refine ⟨?_, ?_, ?_, ?_, by decide, by decide⟩
  · intro b0 rest h
    rw [CompactSize.from_bytes_cons, if_pos h]
  · intro v rest h
    rw [CompactSize.from_bytes_cons]
    rw [if_neg (by omega), if_pos rfl,
      if_neg (by simp [List.length_append, length_leBytes]),
      take_leBytes_append,
      fromLE_leBytes_of_lt (show v < 256 ^ 2 by omega)]
  · intro v rest h
    rw [CompactSize.from_bytes_cons]
    rw [if_neg (by omega), if_neg (by omega), if_pos rfl,
      if_neg (by simp [List.length_append, length_leBytes]),
      take_leBytes_append,
      fromLE_leBytes_of_lt (show v < 256 ^ 4 by omega)]
  · intro v rest h
    rw [CompactSize.from_bytes_cons]
    rw [if_neg (by omega), if_neg (by omega), if_neg (by omega),
      if_neg (by simp [List.length_append, length_leBytes]),
      take_leBytes_append,
      fromLE_leBytes_of_lt (show v < 256 ^ 8 by omega)]

/-- Witness for C3: wide selectors around the small value 10, and the
1-byte selector next to a stray trailing byte. -/
theorem C3_permissive_decode_witness :
    CompactSize.from_bytes (1 :: [255]) = .ok ⟨1⟩ 1 ∧
    CompactSize.from_bytes (253 :: (leBytes 10 2 ++ [])) = .ok ⟨10⟩ 3 ∧
    CompactSize.from_bytes (254 :: (leBytes 10 4 ++ [])) = .ok ⟨10⟩ 5 ∧
    CompactSize.from_bytes (255 :: (leBytes 10 8 ++ [])) = .ok ⟨10⟩ 9 :=
  ⟨C3_permissive_decode.1 1 [255] (by decide),
   C3_permissive_decode.2.1 10 [] (by decide),
   C3_permissive_decode.2.2.1 10 [] (by decide),
   C3_permissive_decode.2.2.2.1 10 [] (by decide)⟩

/-- Claim C4: removing one or more trailing bytes from a valid encoding of
any entity makes decode fail with InsufficientBytes. -/
theorem C4_truncation :
    (∀ c : CompactSize, c.WF → ∀ k, k < c.to_bytes.length →
      CompactSize.from_bytes (c.to_bytes.take k) = .err .InsufficientBytes) ∧
    (∀ o : OutPoint, o.WF → ∀ k, k < o.to_bytes.length →
      OutPoint.from_bytes (o.to_bytes.take k) = .err .InsufficientBytes) ∧
    (∀ s : Script, s.WF → ∀ k, k < s.to_bytes.length →
      Script.from_bytes (s.to_bytes.take k) = .err .InsufficientBytes) ∧
    (∀ i : TransactionInput, i.WF → ∀ k, k < i.to_bytes.length →
      TransactionInput.from_bytes (i.to_bytes.take k) = .err .InsufficientBytes) ∧
    (∀ t : BitcoinTransaction, t.WF → ∀ k, k < t.to_bytes.length →
      BitcoinTransaction.from_bytes (t.to_bytes.take k) = .err .InsufficientBytes) := by
  refine ⟨?_, ?_, ?_, ?_, ?_⟩
  · intro c hc k hk
    have h := CompactSize.rt_cs c [] hc
    rw [List.append_nil] at h
    exact CompactSize.truncate_cs h hk
  · intro o ho k hk
    have h := OutPoint.rt_op o [] ho
    rw [List.append_nil] at h
    rw [OutPoint.to_bytes_length_op ho] at hk
    exact OutPoint.truncate_op h hk
  · intro s hs k hk
    have h := Script.rt_script s [] hs
    rw [List.append_nil] at h
    exact Script.truncate_script h hk
  · intro i hi k hk
    have h := TransactionInput.rt_ti i [] hi
    rw [List.append_nil] at h
    exact TransactionInput.truncate_ti h hk
  · intro t htx k hk
    have h := BitcoinTransaction.rt_tx t [] htx
    rw [List.append_nil] at h
    exact BitcoinTransaction.truncate_tx h hk

/-- Witness for C4: concrete truncations of all five entity types. -/
theorem C4_truncation_witness :
    CompactSize.from_bytes ((CompactSize.to_bytes ⟨300⟩).take 2)
      = .err .InsufficientBytes ∧
    OutPoint.from_bytes (sampleOutPoint.to_bytes.take 35)
      = .err .InsufficientBytes ∧
    Script.from_bytes (sampleScript.to_bytes.take 2)
      = .err .InsufficientBytes ∧
    TransactionInput.from_bytes (sampleInput.to_bytes.take 42)
      = .err .InsufficientBytes ∧
    BitcoinTransaction.from_bytes (sampleTx.to_bytes.take 51)
      = .err .InsufficientBytes :=
  ⟨C4_truncation.1 ⟨300⟩ (by decide) 2 (by decide),
   C4_truncation.2.1 sampleOutPoint (by decide) 35 (by decide),
   C4_truncation.2.2.1 sampleScript (by decide) 2 (by decide),
   C4_truncation.2.2.2.1 sampleInput (by decide) 42 (by decide),
   C4_truncation.2.2.2.2 sampleTx (by decide) 51 (by decide)⟩

/-- Claim C5: InvalidFormat is never produced by any binary `from_bytes`
decoder; the textual Txid path rejects non-hex text and any decoded
length other than 32 bytes (its InvalidFormat-class failure). -/
theorem C5_invalid_format_reserved :
    (∀ b, CompactSize.from_bytes b ≠ .err .InvalidFormat) ∧
    (∀ b, OutPoint.from_bytes b ≠ .err .InvalidFormat) ∧
    (∀ b, Script.from_bytes b ≠ .err .InvalidFormat) ∧
    (∀ b, TransactionInput.from_bytes b ≠ .err .InvalidFormat) ∧
    (∀ b, BitcoinTransaction.from_bytes b ≠ .err .InvalidFormat) ∧
    (∀ s, hexDecode s = none → Txid.fromHexChars s = none) ∧
    (∀ s l, hexDecode s = some l → l.length ≠ 32 →
      Txid.fromHexChars s = none) := by
  refine ⟨CompactSize.no_IF_cs, OutPoint.no_IF_op, Script.no_IF_script,
    TransactionInput.no_IF_ti, BitcoinTransaction.no_IF_tx, ?_, ?_⟩
  · intro s h
    unfold Txid.fromHexChars
    rw [h]
  · intro s l h hl
    unfold Txid.fromHexChars
    rw [h]
    dsimp only
    rw [if_neg hl]

/-- Witness for C5: concrete decoder inputs and rejected hex strings. -/
theorem C5_invalid_format_reserved_witness :
    CompactSize.from_bytes [253] ≠ .err .InvalidFormat ∧
    BitcoinTransaction.from_bytes [1, 0, 0, 0, 1] ≠ .err .InvalidFormat ∧
    Txid.fromHexChars [ 'x' ] = none ∧
    Txid.fromHexChars [ 'a', 'a' ] = none :=
  ⟨C5_invalid_format_reserved.1 [253],
   C5_invalid_format_reserved.2.2.2.2.1 [1, 0, 0, 0, 1],
   C5_invalid_format_reserved.2.2.2.2.2.1 [ 'x' ] (by decide),
   C5_invalid_format_reserved.2.2.2.2.2.2 [ 'a', 'a' ] [170] (by decide) (by decide)⟩

/-- Claim C6 evaluation: when the declared script length is 2^64 - 1 (so
the 9-byte CompactSize prefix makes `prefix_size + script_length`
overflow `usize`), `Script::from_bytes` panics instead of returning
InsufficientBytes; one step below the overflow boundary (declared length
2^64 - 10) the InsufficientBytes return the claim describes does
happen. -/
theorem C6_overflow_crash :
    Script.from_bytes (255 :: leBytes (2 ^ 64 - 1) 8) = .crash ∧
    Script.from_bytes (255 :: leBytes (2 ^ 64 - 10) 8)
      = .err .InsufficientBytes := by decide

/-- Claim C7: composite decoders propagate the first sub-decoder error
verbatim with no local recovery: each failing sub-decode of
TransactionInput (OutPoint, Script, trailing sequence) and of
BitcoinTransaction (input-count CompactSize, any input in the loop,
trailing lock_time) yields exactly that error. -/
theorem C7_error_propagation :
    (∀ b e, OutPoint.from_bytes b = .err e →
      TransactionInput.from_bytes b = .err e) ∧
    (∀ b o p e, OutPoint.from_bytes b = .ok o p →
      Script.from_bytes (b.drop p) = .err e →
      TransactionInput.from_bytes b = .err e) ∧
    (∀ b o p s q, OutPoint.from_bytes b = .ok o p →
      Script.from_bytes (b.drop p) = .ok s q → b.length < p + q + 4 →
      TransactionInput.from_bytes b = .err .InsufficientBytes) ∧
    (∀ b e, ¬ b.length < 4 → CompactSize.from_bytes (b.drop 4) = .err e →
      BitcoinTransaction.from_bytes b = .err e) ∧
    (∀ b c m e, ¬ b.length < 4 → CompactSize.from_bytes (b.drop 4) = .ok c m →
      decodeInputs ((b.drop 4).drop m) c.value = .err e →
      BitcoinTransaction.from_bytes b = .err e) ∧
    (∀ b n e, TransactionInput.from_bytes b = .err e →
      decodeInputs b (n + 1) = .err e) ∧
    (∀ b n i sz e, TransactionInput.from_bytes b = .ok i sz →
      decodeInputs (b.drop sz) n = .err e →
      decodeInputs b (n + 1) = .err e) ∧
    (∀ b c m inputs tot, ¬ b.length < 4 →
      CompactSize.from_bytes (b.drop 4) = .ok c m →
      decodeInputs ((b.drop 4).drop m) c.value = .ok inputs tot →
      b.length < 4 + m + tot + 4 →
      BitcoinTransaction.from_bytes b = .err .InsufficientBytes) := by
  refine ⟨?_, ?_, ?_, ?_, ?_, ?_, ?_, ?_⟩
  · intro b e h
    exact TransactionInput.from_bytes_of_op_err h
  · intro b o p e hop hs
    exact TransactionInput.from_bytes_of_script_err hop hs
  · intro b o p s q hop hs hlen
    rw [TransactionInput.from_bytes_of_sub_ti hop hs, if_pos hlen]
  · intro b e h4 hcs
    exact BitcoinTransaction.from_bytes_of_cs_err_tx h4 hcs
  · intro b c m e h4 hcs hdec
    exact BitcoinTransaction.from_bytes_of_inputs_err h4 hcs hdec
  · intro b n e h
    exact decodeInputs_succ_err h
  · intro b n i sz e h1 h2
    exact decodeInputs_succ_ok_err h1 h2
  · intro b c m inputs tot h4 hcs hdec hlen
    rw [BitcoinTransaction.from_bytes_of_sub_tx h4 hcs hdec, if_pos hlen]

/-- Witness for C7: concrete propagation through both composites and the
input loop. -/
theorem C7_error_propagation_witness :
    TransactionInput.from_bytes ([] : List Nat) = .err .InsufficientBytes ∧
    decodeInputs ([] : List Nat) 1 = .err .InsufficientBytes ∧
    BitcoinTransaction.from_bytes [1, 0, 0, 0, 253] = .err .InsufficientBytes ∧
    BitcoinTransaction.from_bytes [1, 0, 0, 0, 1] = .err .InsufficientBytes :=
  ⟨C7_error_propagation.1 [] .InsufficientBytes (by decide),
   C7_error_propagation.2.2.2.2.2.1 [] 0 .InsufficientBytes (by decide),
   C7_error_propagation.2.2.2.1 [1, 0, 0, 0, 253] .InsufficientBytes
     (by decide) (by decide),
   C7_error_propagation.2.2.2.2.1 [1, 0, 0, 0, 1] ⟨1⟩ 1 .InsufficientBytes
     (by decide) (by decide) (by decide)⟩

/-- Claim C8: every entity's `from_bytes` on the empty slice fails with
InsufficientBytes. -/
theorem C8_empty_input :
    CompactSize.from_bytes ([] : List Nat) = .err .InsufficientBytes ∧
    OutPoint.from_bytes ([] : List Nat) = .err .InsufficientBytes ∧
    Script.from_bytes ([] : List Nat) = .err .InsufficientBytes ∧
    TransactionInput.from_bytes ([] : List Nat) = .err .InsufficientBytes ∧
    BitcoinTransaction.from_bytes ([] : List Nat) = .err .InsufficientBytes := by
  decide

/-- Claim C9: the transaction with version 1, no inputs and lock_time 0
encodes to exactly the 9 bytes 01 00 00 00 / 00 / 00 00 00 00, and those
9 bytes decode back to it with 9 consumed. -/
theorem C9_empty_tx_scenario :
    BitcoinTransaction.to_bytes ⟨1, [], 0⟩ = [1, 0, 0, 0, 0, 0, 0, 0, 0] ∧
    BitcoinTransaction.from_bytes [1, 0, 0, 0, 0, 0, 0, 0, 0]
      = .ok ⟨1, [], 0⟩ 9 := by decide

/-- Claim C10: every decoder reads only the prefix it consumes: a
successful decode consumes at most the input length, and appending any
extra bytes leaves the result (value and consumed count) unchanged. -/
theorem C10_prefix_only :
    (∀ b (v : CompactSize) n, CompactSize.from_bytes b = .ok v n →
      n ≤ b.length ∧ ∀ ext, CompactSize.from_bytes (b ++ ext) = .ok v n) ∧
    (∀ b (v : OutPoint) n, OutPoint.from_bytes b = .ok v n →
      n ≤ b.length ∧ ∀ ext, OutPoint.from_bytes (b ++ ext) = .ok v n) ∧
    (∀ b (v : Script) n, Script.from_bytes b = .ok v n →
      n ≤ b.length ∧ ∀ ext, Script.from_bytes (b ++ ext) = .ok v n) ∧
    (∀ b (v : TransactionInput) n, TransactionInput.from_bytes b = .ok v n →
      n ≤ b.length ∧ ∀ ext, TransactionInput.from_bytes (b ++ ext) = .ok v n) ∧
    (∀ b (v : BitcoinTransaction) n, BitcoinTransaction.from_bytes b = .ok v n →
      n ≤ b.length ∧ ∀ ext, BitcoinTransaction.from_bytes (b ++ ext) = .ok v n) := by
  refine ⟨?_, ?_, ?_, ?_, ?_⟩
  · intro b v n h
    obtain ⟨_, hle⟩ := CompactSize.consumed_le_cs h
    exact ⟨hle, fun ext => CompactSize.stable_cs h (take_append_of_le hle)
      (by rw [List.length_append]; omega)⟩
  · intro b v n h
    obtain ⟨hb, rfl, _⟩ := OutPoint.ok_inv_op h
    exact ⟨hb, fun ext => OutPoint.stable_op h (take_append_of_le hb)
      (by rw [List.length_append]; omega)⟩
  · intro b v n h
    obtain ⟨c, p, _, _, hble, _, hn⟩ := Script.ok_inv_script h
    have hle : n ≤ b.length := by omega
    exact ⟨hle, fun ext => Script.stable_script h (take_append_of_le hle)
      (by rw [List.length_append]; omega)⟩
  · intro b v n h
    have hle := TransactionInput.consumed_le_ti h
    exact ⟨hle, fun ext => TransactionInput.stable_ti h (take_append_of_le hle)
      (by rw [List.length_append]; omega)⟩
  · intro b v n h
    obtain ⟨c, m, inputs, tot, _, _, _, hble, _, hn⟩ :=
      BitcoinTransaction.ok_inv_tx h
    have hle : n ≤ b.length := by omega
    exact ⟨hle, fun ext => BitcoinTransaction.stable_tx h (take_append_of_le hle)
      (by rw [List.length_append]; omega)⟩

/-- Witness for C10: a CompactSize and a whole transaction decode are
unchanged by trailing junk. -/
theorem C10_prefix_only_witness :
    1 ≤ ([5] : List Nat).length ∧
    CompactSize.from_bytes ([5] ++ [9]) = .ok ⟨5⟩ 1 ∧
    BitcoinTransaction.from_bytes ([1, 0, 0, 0, 0, 0, 0, 0, 0] ++ [7])
      = .ok ⟨1, [], 0⟩ 9 :=
  ⟨(C10_prefix_only.1 [5] ⟨5⟩ 1 (by decide)).1,
   (C10_prefix_only.1 [5] ⟨5⟩ 1 (by decide)).2 [9],
   (C10_prefix_only.2.2.2.2 [1, 0, 0, 0, 0, 0, 0, 0, 0] ⟨1, [], 0⟩ 9
     (by decide)).2 [7]⟩

end BtcCodec
